import Mathlib

/-!
Verification of the crash-safe filesystem primitives (`libs/utils/src/crashsafe.rs`)
and of the time-travel recovery engine of the remote-storage layer.

The filesystem is modelled as a finite map from component lists (paths) to nodes
(directory or file-with-content), with the root directory implicit.  Every
operation of the Rust code (`std::fs::metadata`, `std::fs::create_dir`,
`tokio::fs::rename`, `File::open` + `sync_all`) is embedded as an executable
function on that map which follows the POSIX behaviour the Rust standard
library exposes on Linux, and the crashsafe functions are direct translations
that additionally record the observable effect trace (creations, the rename,
and every fsync, in order).
-/

namespace Neon

/-- A path: an absolute flag plus the list of components.  `⟨true, []⟩` is `/`,
`⟨false, []⟩` is the empty path `""`, `⟨false, ["."]⟩ ` is `./`. -/
structure Path where
  abs : Bool
  cs : List String
deriving DecidableEq

/-- `Utf8Path::parent`: `None` for `/` and for the empty path, otherwise the
path with the last component removed (so the parent of a one-component
relative path is the empty path, as in Rust). -/
def Path.parent (p : Path) : Option Path :=
  match p.cs with
  | [] => none
  | _ :: _ => some ⟨p.abs, p.cs.dropLast⟩

/-- The path `./`, used by `durable_rename` as the fallback parent. -/
def dotPath : Path := ⟨false, ["."]⟩

/-- A path component is normal when it is a plain name (not empty, not `.`,
not `..`). -/
def normalSeg (s : String) : Bool := s != "" && s != "." && s != ".."

/-- All components of the path are plain names. -/
def Path.Normal (p : Path) : Bool := p.cs.all normalSeg

/-- Resolution ignores `.` components; `canon p.cs` is the key a path denotes
in the filesystem map (resolution starts at the root, which is also the
current directory of the process in this model). -/
def canon (cs : List String) : List String := cs.filter (fun c => c != ".")

/-- Error kinds of `std::io` that the code under test can produce. -/
inductive FsErr where
  /-- `ErrorKind::NotFound` (`ENOENT`) -/
  | notFound
  /-- `ErrorKind::AlreadyExists` (`EEXIST`), the `Conflict` of the spec -/
  | alreadyExists
  /-- `ENOTDIR`: a non-final component of the path is not a directory -/
  | notADirectory
  /-- `EISDIR`: rename of a file onto an existing directory -/
  | isADirectory
  /-- `ENOTEMPTY`: rename onto a non-empty directory -/
  | dirNotEmpty
  /-- `ErrorKind::InvalidInput`, raised by `create_dir_all` when a path has no
  parent, and `EINVAL` for a rename of a directory into itself -/
  | invalidInput
  /-- `EBUSY`: rename whose source or destination is the root / the cwd -/
  | busy
  /-- the `ErrorKind::Other` error `fsync_file_and_parent` raises when the path
  has no parent -/
  | noParent
deriving DecidableEq

/-- A filesystem node: a directory or a file with its content. -/
inductive Node where
  | file (content : String)
  | dir
deriving DecidableEq

/-- The filesystem: an association list from canonical component lists to
nodes.  The root `[]` is an implicit, always-existing directory. -/
abbrev FS := List (List String × Node)

/-- First binding of a key, as association-list lookup. -/
def findKey : FS → List String → Option Node
  | [], _ => none
  | (k, n) :: rest, cs => if k = cs then some n else findKey rest cs

/-- All proper prefixes of a list (including the empty one). -/
def properPrefixes : List String → List (List String)
  | [] => []
  | c :: cs => [] :: (properPrefixes cs).map (fun q => c :: q)

/-- Does the key denote an existing regular file? -/
def isFileKey (fs : FS) (q : List String) : Bool :=
  match findKey fs q with
  | some (Node.file _) => true
  | _ => false

/-- Some strict ancestor of the key is a regular file: resolving the path
fails with `ENOTDIR`. -/
def hasFileAncestor (fs : FS) (cs : List String) : Bool :=
  (properPrefixes cs).any (fun q => !q.isEmpty && isFileKey fs q)

/-- `std::fs::metadata` / `File::open`: resolve a path to its node.  The empty
path is `ENOENT`; `/` and `.` are the root directory; otherwise the key is
looked up, a missing key giving `ENOTDIR` when a strict ancestor is a file and
`ENOENT` otherwise. -/
def FS.statP (fs : FS) (p : Path) : Except FsErr Node :=
  let cs := canon p.cs
  if cs.isEmpty then
    if p.abs = false ∧ p.cs.isEmpty then .error .notFound else .ok .dir
  else
    match findKey fs cs with
    | some n => .ok n
    | none =>
      if hasFileAncestor fs cs then .error .notADirectory else .error .notFound

/-- `std::fs::create_dir` (`mkdir(2)`): fails with `EEXIST` if the path
already exists (the root and `.` always exist), `ENOENT`/`ENOTDIR` if the
parent chain is missing or crosses a file, otherwise adds one directory. -/
def FS.mkdirFS (fs : FS) (p : Path) : Except FsErr FS :=
  let cs := canon p.cs
  if cs.isEmpty then
    if p.abs = false ∧ p.cs.isEmpty then .error .notFound else .error .alreadyExists
  else
    match findKey fs cs with
    | some _ => .error .alreadyExists
    | none =>
      let par := cs.dropLast
      if par.isEmpty then .ok ((cs, Node.dir) :: fs)
      else
        match findKey fs par with
        | some Node.dir => .ok ((cs, Node.dir) :: fs)
        | some (Node.file _) => .error .notADirectory
        | none =>
          if hasFileAncestor fs par then .error .notADirectory else .error .notFound

/-- The destination directory already has entries (`ENOTEMPTY` test). -/
def dirNonEmpty (fs : FS) (cs : List String) : Bool :=
  fs.any (fun kn => (kn.1 != cs) && cs.isPrefixOf kn.1)

/-- Move the subtree rooted at `co` to `cn`: drop whatever was at the
destination and remap every key under the source. -/
def FS.renameMove (fs : FS) (co cn : List String) : FS :=
  (fs.filter (fun kn => !cn.isPrefixOf kn.1)).map
    (fun kn => if co.isPrefixOf kn.1 then (cn ++ kn.1.drop co.length, kn.2) else kn)

/-- `rename(2)` as exposed by `tokio::fs::rename` / `std::fs::rename`:
an empty source or destination is `ENOENT`; the root or `.` as source or
destination is `EBUSY` (they are the root / cwd of the process); a source and
destination resolving to the same entry succeed with no effect (POSIX);
renaming a directory into itself is `EINVAL`; the destination's parent chain
must resolve to a directory; an existing destination must be compatible
(file over file, directory over empty directory). -/
def FS.rename (fs : FS) (old nw : Path) : Except FsErr FS :=
  if old.cs.isEmpty ∧ old.abs = false then .error .notFound
  else if nw.cs.isEmpty ∧ nw.abs = false then .error .notFound
  else
    let co := canon old.cs
    let cn := canon nw.cs
    if co.isEmpty then .error .busy
    else if cn.isEmpty then .error .busy
    else
      match findKey fs co with
      | none =>
        if hasFileAncestor fs co then .error .notADirectory else .error .notFound
      | some oldE =>
        if co = cn then .ok fs
        else if co.isPrefixOf cn then .error .invalidInput
        else
          match parCheck fs cn.dropLast with
          | .error e => .error e
          | .ok _ =>
            match findKey fs cn with
            | none => .ok (FS.renameMove fs co cn)
            | some (Node.file _) =>
              match oldE with
              | Node.file _ => .ok (FS.renameMove fs co cn)
              | Node.dir => .error .notADirectory
            | some Node.dir =>
              match oldE with
              | Node.file _ => .error .isADirectory
              | Node.dir =>
                if dirNonEmpty fs cn then .error .dirNotEmpty
                else .ok (FS.renameMove fs co cn)
where
  parCheck (fs : FS) (par : List String) : Except FsErr Unit :=
    if par.isEmpty then .ok ()
    else
      match findKey fs par with
      | some Node.dir => .ok ()
      | some (Node.file _) => .error .notADirectory
      | none =>
        if hasFileAncestor fs par then .error .notADirectory else .error .notFound

/-- Well-formed filesystem: keys are distinct and non-empty, and every strict
ancestor of a stored key is itself stored as a directory. -/
def FS.wf (fs : FS) : Prop :=
  (fs.map Prod.fst).Nodup ∧
  ∀ kn ∈ fs, kn.1 ≠ [] ∧
    ∀ q ∈ properPrefixes kn.1, q = [] ∨ findKey fs q = some Node.dir

instance (fs : FS) : Decidable (FS.wf fs) := by
  unfold FS.wf; infer_instance

/-- Observable effects of the crashsafe primitives, in program order. -/
inductive Event where
  | create (p : Path)
  | rename (old nw : Path)
  | fsync (p : Path)
deriving DecidableEq

/-- `crashsafe::fsync`: `File::open(path)` followed by `sync_all` (the wrapper
only rewraps error messages, the kind is preserved). -/
def fsync (fs : FS) (p : Path) : Except FsErr (FS × List Event) :=
  match FS.statP fs p with
  | .error e => .error e
  | .ok _ => .ok (fs, [Event.fsync p])

/-- `crashsafe::fsync_file_and_parent`: fails with an `Other` error when the
path has no parent, otherwise syncs the file and then its parent. -/
def fsync_file_and_parent (fs : FS) (p : Path) : Except FsErr (FS × List Event) :=
  match p.parent with
  | none => .error .noParent
  | some par =>
    match fsync fs p with
    | .error e => .error e
    | .ok (fs1, t1) =>
      match fsync fs1 par with
      | .error e => .error e
      | .ok (fs2, t2) => .ok (fs2, t1 ++ t2)

/-- `crashsafe::create_dir`: `fs::create_dir` then `fsync_file_and_parent`. -/
def create_dir (fs : FS) (p : Path) : Except FsErr (FS × List Event) :=
  match FS.mkdirFS fs p with
  | .error e => .error e
  | .ok fs1 =>
    match fsync_file_and_parent fs1 p with
    | .error e => .error e
    | .ok (fs2, tr) => .ok (fs2, Event.create p :: tr)

/-- The ancestor-collecting loop of `crashsafe::create_dir_all`, walking from
the path upward: an existing directory stops the walk, an existing
non-directory is `AlreadyExists`, `NotFound` pushes the path and moves to the
parent (no parent is `InvalidInput`), any other `metadata` error is returned
as is.  The fuel argument bounds the walk; every step drops one component, so
`p.cs.length + 1` is always enough. -/
def collectAux (fs : FS) : Nat → Path → Except FsErr (List Path × Path)
  | 0, _ => .error .invalidInput
  | fuel + 1, p =>
    match FS.statP fs p with
    | .ok Node.dir => .ok ([], p)
    | .ok (Node.file _) => .error .alreadyExists
    | .error FsErr.notFound =>
      match p.parent with
      | none => .error .invalidInput
      | some par =>
        match collectAux fs fuel par with
        | .ok (dirs, anc) => .ok (p :: dirs, anc)
        | .error e => .error e
    | .error e => .error e

/-- `dirs_to_create` (deepest first) together with the pre-existing ancestor
the walk stopped at. -/
def collectDirs (fs : FS) (p : Path) : Except FsErr (List Path × Path) :=
  collectAux fs (p.cs.length + 1) p

/-- The creation loop of `create_dir_all`: `fs::create_dir` on each path in
order (the caller passes them parent-first). -/
def createAll (fs : FS) : List Path → Except FsErr (FS × List Event)
  | [] => .ok (fs, [])
  | d :: rest =>
    match FS.mkdirFS fs d with
    | .error e => .error e
    | .ok fs1 =>
      match createAll fs1 rest with
      | .error e => .error e
      | .ok (fs2, tr) => .ok (fs2, Event.create d :: tr)

/-- The fsync loop of `create_dir_all`: `fsync` on each path in order. -/
def fsyncAll (fs : FS) : List Path → Except FsErr (FS × List Event)
  | [] => .ok (fs, [])
  | d :: rest =>
    match fsync fs d with
    | .error e => .error e
    | .ok (fs1, _) =>
      match fsyncAll fs1 rest with
      | .error e => .error e
      | .ok (fs2, tr) => .ok (fs2, Event.fsync d :: tr)

/-- `crashsafe::create_dir_all`: collect the missing ancestors walking upward,
create them parent-to-child, fsync them child-to-parent, and if anything was
created fsync the pre-existing ancestor. -/
def create_dir_all (fs : FS) (p : Path) : Except FsErr (FS × List Event) :=
  match collectDirs fs p with
  | .error e => .error e
  | .ok (dirs, anc) =>
    match createAll fs dirs.reverse with
    | .error e => .error e
    | .ok (fs1, t1) =>
      match fsyncAll fs1 dirs with
      | .error e => .error e
      | .ok (fs2, t2) =>
        if dirs.isEmpty then .ok (fs2, t1 ++ t2)
        else
          match fsync fs2 anc with
          | .error e => .error e
          | .ok (fs3, t3) => .ok (fs3, t1 ++ t2 ++ t3)

/-- One step of the last-dot scan: extend a split found further right, or
start one at this character if it is a dot. -/
def dotStep (c : Char) (rest : List Char) :
    Option (List Char × List Char) → Option (List Char × List Char)
  | some (b, a) => some (c :: b, a)
  | none => if c = '.' then some ([], rest) else none

/-- Split a component at its last dot: `some (before, after)` with
`cs = before ++ '.' :: after` and no dot in `after`. -/
def breakAtLastDot : List Char → Option (List Char × List Char)
  | [] => none
  | c :: rest => dotStep c rest (breakAtLastDot rest)

/-- Extension from a last-dot split: none when the dot leads the name. -/
def extOfCore : Option (List Char × List Char) → Option String
  | some (b, a) => if b = [] then none else some (String.mk a)
  | none => none

/-- `Utf8Path::extension` on a file name: the part after the last dot, unless
that dot is the leading character (hidden files have no extension). -/
def extOf (f : String) : Option String := extOfCore (breakAtLastDot f.data)

/-- Stem from a last-dot split: the whole name when there is no extension. -/
def stemOfCore (f : String) : Option (List Char × List Char) → String
  | some (b, _) => if b = [] then f else String.mk b
  | none => f

/-- `Utf8Path::file_stem` on a file name: what precedes the extension, or the
whole name when there is none. -/
def stemOf (f : String) : String := stemOfCore f (breakAtLastDot f.data)

/-- `Utf8Path::with_extension` on a file name: the stem, plus a dot and the
new extension when it is non-empty. -/
def withExtension (f : String) (e : String) : String :=
  if e = "" then stemOf f else stemOf f ++ "." ++ e

/-- `crashsafe::path_with_suffix_extension`: append the suffix to an existing
extension, or install it as the extension; a path without a final component is
returned unchanged (as `with_extension` does). -/
def path_with_suffix_extension (p : Path) (suffix : String) : Path :=
  match p.cs.getLast? with
  | none => p
  | some f =>
    let newExt :=
      match extOf f with
      | some e => e ++ "." ++ suffix
      | none => suffix
    ⟨p.abs, p.cs.dropLast ++ [withExtension f newExt]⟩

/-- `crashsafe::fsync_async_opt`: fsync only when the flag is set. -/
def fsync_async_opt (fs : FS) (p : Path) (do_fsync : Bool) :
    Except FsErr (FS × List Event) :=
  if do_fsync then fsync fs p else .ok (fs, [])

/-- The parent `durable_rename` fsyncs in its final step: the parent of the
new path, or `./` when there is none. -/
def renameParentArg (nw : Path) : Path :=
  match nw.parent with
  | some q => q
  | none => dotPath

/-- `crashsafe::durable_rename`: optionally fsync the old path, rename,
optionally fsync the new path, optionally fsync the new path's parent
(falling back to `./`). -/
def durable_rename (fs : FS) (old_path new_path : Path) (do_fsync : Bool) :
    Except FsErr (FS × List Event) :=
  match fsync_async_opt fs old_path do_fsync with
  | .error e => .error e
  | .ok (fs1, t1) =>
    match FS.rename fs1 old_path new_path with
    | .error e => .error e
    | .ok fs2 =>
      match fsync_async_opt fs2 new_path do_fsync with
      | .error e => .error e
      | .ok (fs3, t3) =>
        match fsync_async_opt fs3 (renameParentArg new_path) do_fsync with
        | .error e => .error e
        | .ok (fs4, t4) =>
          .ok (fs4, t1 ++ Event.rename old_path new_path :: (t3 ++ t4))

/-- Consecutive entries of the list are linked by `Path.parent`, ending at the
given ancestor. -/
def parentLinked : List Path → Path → Prop
  | [], _ => True
  | [d], anc => d.parent = some anc
  | d :: d2 :: rest, anc => d.parent = some d2 ∧ parentLinked (d2 :: rest) anc

/-!
Time-travel recovery.  The engine itself (`time_travel_recover`) is not part
of the sources under `src/` — only its S3 integration test is — so the
definitions below are modelled from the spec, §4.3.
-/

/-- Modelled from the spec: an `ObjectVersion` of the versioned store — a
timestamp, a delete-marker flag and (for ordinary versions) the content.
The spec's opaque version ordinal is represented by position in the history
list. -/
structure Version where
  t : Nat
  marker : Bool
  content : String
deriving DecidableEq

/-- A key's version history, in chronological order (ties in `t` keep upload
order, the spec's "ties broken by version ordinal / listing order"). -/
abbrev Hist := List Version

/-- Modelled from the spec: the versioned object store, a map from keys to
version histories; deletion appends a delete marker rather than erasing. -/
abbrev Store := List (String × Hist)

/-- Append a version to a key's history (creating the key if needed). -/
def putVersion (s : Store) (k : String) (v : Version) : Store :=
  match s with
  | [] => [(k, [v])]
  | (k2, h) :: rest =>
    if k2 = k then (k2, h ++ [v]) :: rest else (k2, h) :: putVersion rest k v

/-- Modelled from the spec: `upload` creates a new version. -/
def upload (s : Store) (k : String) (c : String) (t : Nat) : Store :=
  putVersion s k ⟨t, false, c⟩

/-- Modelled from the spec: `delete` creates a delete marker. -/
def deleteObj (s : Store) (k : String) (t : Nat) : Store :=
  putVersion s k ⟨t, true, ""⟩

/-- The target version at time `T`: the most recent version with
`last_modified ≤ T` (the latest entry wins a tie). -/
def targetVersion (h : Hist) (T : Nat) : Option Version :=
  match h with
  | [] => none
  | v :: rest =>
    match targetVersion rest T with
    | some w => some w
    | none => if v.t ≤ T then some v else none

/-- The live (most recent) version of a history. -/
def liveVersion (h : Hist) : Option Version := h.getLast?

/-- The content a version denotes: `none` for absent / delete marker. -/
def contentOfV : Option Version → Option String
  | some v => if v.marker then none else some v.content
  | none => none

/-- Content of the key at time `T` ("absent" is `none`). -/
def targetC (h : Hist) (T : Nat) : Option String := contentOfV (targetVersion h T)

/-- Live content of the key ("absent" is `none`). -/
def liveC (h : Hist) : Option String := contentOfV (liveVersion h)

/-- Modelled from the spec, §4.3 step 4: reconcile one key toward time `T` —
copy the target version over a differing live state, delete a live key whose
target is absent, and do nothing when live already equals the target.  A
restore / delete-marker write is a new version with the current time `now`. -/
def reconcileKey (h : Hist) (T now : Nat) : Hist :=
  match targetC h T with
  | some c => if liveC h = some c then h else h ++ [⟨now, false, c⟩]
  | none => if liveC h = none then h else h ++ [⟨now, true, ""⟩]

/-- Modelled from the spec: `time_travel_recover` reconciles every key
independently. -/
def recover (s : Store) (T now : Nat) : Store :=
  s.map (fun kh => (kh.1, reconcileKey kh.2 T now))

/-- Modelled from the spec, §4.3 step 6: a cancelled or failed attempt has
reconciled only some subset `ks` of the keys. -/
def recoverSome (s : Store) (ks : List String) (T now : Nat) : Store :=
  s.map (fun kh => if kh.1 ∈ ks then (kh.1, reconcileKey kh.2 T now) else kh)

/-- The live listing (the keys `list_files` returns). -/
def liveListing (s : Store) : List String :=
  s.filterMap (fun kh => if (liveC kh.2).isSome then some kh.1 else none)

/-- The listing as it existed at time `T`. -/
def listingAt (s : Store) (T : Nat) : List String :=
  s.filterMap (fun kh => if (targetC kh.2 T).isSome then some kh.1 else none)

/-- `download` of a key's current content (`none` is `NotFound`). -/
def downloadLive (s : Store) (k : String) : Option String :=
  match s with
  | [] => none
  | (k2, h) :: rest => if k2 = k then liveC h else downloadLive rest k

/-- The content the key had at time `T`. -/
def downloadAt (s : Store) (k : String) (T : Nat) : Option String :=
  match s with
  | [] => none
  | (k2, h) :: rest => if k2 = k then targetC h T else downloadAt rest k T

/-- The S3 test's write history, snapshot `t0 = 2`: `path1` uploaded. -/
def storeT0 : Store := upload [] "path1" "remote blob data1" 1

/-- Snapshot `t1 = 4`: `path2 = "remote blob data2"` uploaded as well. -/
def storeT1 : Store := upload storeT0 "path2" "remote blob data2" 3

/-- Snapshot `t2 = 8`: `path3` uploaded, `path2` overwritten with
`"new remote blob data2"`, `path1` deleted. -/
def storeT2 : Store :=
  deleteObj (upload (upload storeT1 "path3" "remote blob data3" 5)
    "path2" "new remote blob data2" 6) "path1" 7

/-- The store after `recover(t2)` (a no-op), run at time 10. -/
def recoveredT2 : Store := recover storeT2 8 10

/-- Then after `recover(t1)`, run at time 11. -/
def recoveredT1 : Store := recover recoveredT2 4 11

/-- Then after `recover(t0)`, run at time 12. -/
def recoveredT0 : Store := recover recoveredT1 2 12

/-! ### Basic helpers -/

theorem strEq {s t : String} (h : s.data = t.data) : s = t := by
  cases s; cases t; cases h; rfl

theorem data_append (s t : String) : (s ++ t).data = s.data ++ t.data := rfl

theorem dot_data : ("." : String).data = ['.'] := rfl

theorem parent_none_iff (p : Path) : p.parent = none ↔ p.cs = [] := by
  unfold Path.parent
  cases h : p.cs <;> simp

theorem parent_some_cs {p q : Path} (h : p.parent = some q) :
    q.cs = p.cs.dropLast ∧ p.cs ≠ [] ∧ q.abs = p.abs := by
  unfold Path.parent at h
  cases hc : p.cs with
  | nil => rw [hc] at h; simp at h
  | cons c rest =>
    rw [hc] at h
    simp only [Option.some.injEq] at h
    subst h
    simp [hc]

/-! ### Claim C7: `path_with_suffix_extension` -/

theorem breakAtLastDot_eq :
    ∀ (cs b a : List Char), breakAtLastDot cs = some (b, a) → cs = b ++ '.' :: a := by
  intro cs
  induction cs with
  | nil => intro b a h; simp [breakAtLastDot] at h
  | cons c rest ih =>
    intro b a h
    rw [breakAtLastDot] at h
    cases hb : breakAtLastDot rest with
    | some pr =>
      obtain ⟨b2, a2⟩ := pr
      rw [hb] at h
      simp only [dotStep, Option.some.injEq, Prod.mk.injEq] at h
      obtain ⟨hb1, ha⟩ := h
      subst hb1; subst ha
      have := ih b2 a2 hb
      simp [this]
    | none =>
      rw [hb] at h
      simp only [dotStep] at h
      by_cases hc : c = '.'
      · rw [if_pos hc] at h
        injection h with h1
        injection h1 with h2 h3
        subst hc; subst h2; subst h3
        simp
      · rw [if_neg hc] at h
        exact absurd h (by simp)

theorem withExtension_suffix (f s : String) (hs : s ≠ "") :
    withExtension f (match extOf f with | some e => e ++ "." ++ s | none => s) =
      f ++ "." ++ s := by
  unfold extOf withExtension stemOf
  cases hb : breakAtLastDot f.data with
  | none =>
    simp only [hb, extOfCore, stemOfCore]
    simp [hs]
  | some pr =>
    obtain ⟨b, a⟩ := pr
    have hf : f.data = b ++ '.' :: a := breakAtLastDot_eq _ _ _ hb
    by_cases hbe : b = []
    · subst hbe
      simp only [hb, extOfCore, stemOfCore, if_pos rfl]
      simp [hs]
    · simp only [hb, extOfCore, stemOfCore, if_neg hbe]
      have hne : String.mk a ++ "." ++ s ≠ "" := by
        intro hc
        have hd := congrArg String.data hc
        simp [data_append, dot_data] at hd
      rw [if_neg hne]
      apply strEq
      simp [data_append, dot_data, hf]

/-- Claim C7: `path_with_suffix_extension` is pure and, for every path with a
final component and every non-empty suffix, appends `"." ++ suffix` after the
existing extension (installing the suffix as the extension when there is
none): the final component becomes `name ++ "." ++ suffix`; in particular the
two examples of the spec hold. -/
theorem path_with_suffix_extension_spec :
    (∀ (ab : Bool) (ds : List String) (f s : String), normalSeg f = true → s ≠ "" →
      path_with_suffix_extension ⟨ab, ds ++ [f]⟩ s = ⟨ab, ds ++ [f ++ "." ++ s]⟩) ∧
    path_with_suffix_extension ⟨true, ["a", "b"]⟩ "tmp" = ⟨true, ["a", "b.tmp"]⟩ ∧
    path_with_suffix_extension ⟨true, ["a", "b.c"]⟩ "tmp" = ⟨true, ["a", "b.c.tmp"]⟩ := by
  refine ⟨?_, by decide, by decide⟩
  intro ab ds f s _ hs
  simp only [path_with_suffix_extension]
  rw [show (ds ++ [f]).getLast? = some f by simp]
  simp only [List.dropLast_concat]
  rw [withExtension_suffix f s hs]

/-- Witness for C7 at a concrete path and suffix. -/
theorem path_with_suffix_extension_spec_witness :
    normalSeg "y.z" = true ∧ ("suf" : String) ≠ "" ∧
      path_with_suffix_extension ⟨true, ["x", "y.z"]⟩ "suf" = ⟨true, ["x", "y.z.suf"]⟩ := by
  refine ⟨by decide, by decide, ?_⟩
  have h := path_with_suffix_extension_spec.1 true ["x"] "y.z" "suf" (by decide) (by decide)
  simpa using h

/-! ### Claims C1 and C10: `durable_rename` -/

theorem fsync_async_opt_ok_inv {fs : FS} {p : Path} {b : Bool} {fs2 : FS} {t : List Event}
    (h : fsync_async_opt fs p b = .ok (fs2, t)) :
    fs2 = fs ∧ t = (if b then [Event.fsync p] else []) := by
  cases b with
  | false =>
    unfold fsync_async_opt at h
    simp only [Bool.false_eq_true, if_false] at h
    injection h with h1
    injection h1 with hA hB
    exact ⟨hA.symm, by simp [hB.symm]⟩
  | true =>
    unfold fsync_async_opt at h
    simp only [if_true] at h
    unfold fsync at h
    split at h
    · exact absurd h (by simp)
    · injection h with h1
      injection h1 with hA hB
      exact ⟨hA.symm, by simp [hB.symm]⟩

/-- A successful `durable_rename` run decomposes into the underlying rename
plus the flag-dependent fsync trace. -/
theorem durable_rename_ok_inv {fs : FS} {old nw : Path} {b : Bool} {fs' : FS} {tr : List Event}
    (h : durable_rename fs old nw b = .ok (fs', tr)) :
    FS.rename fs old nw = .ok fs' ∧
    tr = if b then [Event.fsync old, Event.rename old nw, Event.fsync nw,
                    Event.fsync (renameParentArg nw)]
         else [Event.rename old nw] := by
  unfold durable_rename at h
  split at h
  · exact absurd h (by simp)
  · rename_i fs1 t1 heq1
    split at h
    · exact absurd h (by simp)
    · rename_i fs2 heq2
      split at h
      · exact absurd h (by simp)
      · rename_i fs3 t3 heq3
        split at h
        · exact absurd h (by simp)
        · rename_i fs4 t4 heq4
          injection h with h1
          injection h1 with hA hB
          obtain ⟨e1, e1t⟩ := fsync_async_opt_ok_inv heq1
          obtain ⟨e3, e3t⟩ := fsync_async_opt_ok_inv heq3
          obtain ⟨e4, e4t⟩ := fsync_async_opt_ok_inv heq4
          subst e1; subst e3; subst e4
          constructor
          · rw [← hA]; exact heq2
          · rw [← hB, e1t, e3t, e4t]; cases b <;> simp

/-- Claim C1: on every successful run, `durable_rename old new flag` performs
the rename, and its effect trace is exactly `fsync old`, the rename,
`fsync new`, `fsync (parent of new)` in this order when the flag is set, and
exactly the rename alone when the flag is cleared. -/
theorem durable_rename_fsync_order :
    ∀ (fs : FS) (old nw : Path) (b : Bool) (fs' : FS) (tr : List Event),
      durable_rename fs old nw b = .ok (fs', tr) →
      FS.rename fs old nw = .ok fs' ∧
      tr = if b then [Event.fsync old, Event.rename old nw, Event.fsync nw,
                      Event.fsync (renameParentArg nw)]
           else [Event.rename old nw] :=
  fun _ _ _ _ _ _ h => durable_rename_ok_inv h

/-- Witness for C1: a concrete successful rename of `/a` to `/b`, with the
flag both set (four fsyncs around the rename) and cleared (rename only). -/
theorem durable_rename_fsync_order_witness :
    durable_rename [(["a"], Node.file "x")] ⟨true, ["a"]⟩ ⟨true, ["b"]⟩ true =
      .ok ([(["b"], Node.file "x")],
        [Event.fsync ⟨true, ["a"]⟩, Event.rename ⟨true, ["a"]⟩ ⟨true, ["b"]⟩,
         Event.fsync ⟨true, ["b"]⟩, Event.fsync ⟨true, []⟩]) ∧
    FS.rename [(["a"], Node.file "x")] ⟨true, ["a"]⟩ ⟨true, ["b"]⟩ =
      .ok [(["b"], Node.file "x")] := by
  constructor
  · rfl
  · exact (durable_rename_fsync_order [(["a"], Node.file "x")] ⟨true, ["a"]⟩ ⟨true, ["b"]⟩
      true [(["b"], Node.file "x")]
      [Event.fsync ⟨true, ["a"]⟩, Event.rename ⟨true, ["a"]⟩ ⟨true, ["b"]⟩,
       Event.fsync ⟨true, ["b"]⟩, Event.fsync ⟨true, []⟩] rfl).1

/-- A rename whose destination path has no components never succeeds: the
empty path is `NotFound` and the root is `EBUSY`. -/
theorem rename_empty_dst (fs : FS) (old nw : Path) (h : nw.cs = []) :
    ∀ fs2, FS.rename fs old nw ≠ .ok fs2 := by
  intro fs2 hc
  simp only [FS.rename, h, canon, List.filter_nil] at hc
  split_ifs at hc <;> simp_all

/-- Claim C10 counterexample: as stated the claim is false — for a `new_path`
without a parent `durable_rename` can never return success, because the
rename step itself always fails for such a destination. -/
theorem durable_rename_no_parent_counterexample :
    ¬ ∃ (fs : FS) (old nw : Path) (b : Bool) (r : FS × List Event),
        nw.parent = none ∧ durable_rename fs old nw b = .ok r := by
  rintro ⟨fs, old, nw, b, ⟨r1, r2⟩, hpar, hok⟩
  have hcs : nw.cs = [] := (parent_none_iff nw).mp hpar
  obtain ⟨hr, -⟩ := durable_rename_ok_inv hok
  exact rename_empty_dst fs old nw hcs r1 hr

/-- Claim C10 (amended): when `new_path` has no parent component,
`durable_rename`'s final step falls back to fsyncing `./`, and that fallback
fsync itself always succeeds (so the call never fails for lack of a parent);
however the call cannot return success for such a `new_path`, because the
rename step itself fails. -/
theorem durable_rename_no_parent_fallback :
    ∀ (fs : FS) (old nw : Path) (b : Bool), nw.parent = none →
      renameParentArg nw = dotPath ∧
      (∀ fs2 : FS, fsync_async_opt fs2 (renameParentArg nw) b =
        .ok (fs2, if b then [Event.fsync (renameParentArg nw)] else [])) ∧
      ∀ r : FS × List Event, durable_rename fs old nw b ≠ .ok r := by
  intro fs old nw b hpar
  have hcs : nw.cs = [] := (parent_none_iff nw).mp hpar
  have harg : renameParentArg nw = dotPath := by
    unfold renameParentArg; rw [hpar]
  refine ⟨harg, ?_, ?_⟩
  · intro fs2
    rw [harg]
    cases b with
    | false => rfl
    | true => rfl
  · intro r hok
    obtain ⟨r1, r2⟩ := r
    obtain ⟨hr, -⟩ := durable_rename_ok_inv hok
    exact rename_empty_dst fs old nw hcs r1 hr

/-- Witness for C10 (amended) at the concrete parentless destination `""`. -/
theorem durable_rename_no_parent_fallback_witness :
    (Path.parent ⟨false, ([] : List String)⟩ = none) ∧
    renameParentArg ⟨false, []⟩ = dotPath ∧
    durable_rename ([] : FS) ⟨false, ["a"]⟩ ⟨false, []⟩ true ≠ .ok ([], []) := by
  refine ⟨rfl, ?_, ?_⟩
  · exact (durable_rename_no_parent_fallback [] ⟨false, ["a"]⟩ ⟨false, []⟩ true rfl).1
  · exact (durable_rename_no_parent_fallback [] ⟨false, ["a"]⟩ ⟨false, []⟩ true rfl).2.2 ([], [])

/-! ### Claim C6: `create_dir` -/

theorem fsync_ok_inv {fs : FS} {p : Path} {fs2 : FS} {t : List Event}
    (h : fsync fs p = .ok (fs2, t)) : fs2 = fs ∧ t = [Event.fsync p] := by
  unfold fsync at h
  split at h
  · exact absurd h (by simp)
  · injection h with h1
    injection h1 with hA hB
    exact ⟨hA.symm, hB.symm⟩

theorem mkdirFS_ok {fs : FS} {p : Path} {fs1 : FS} (h : FS.mkdirFS fs p = .ok fs1) :
    fs1 = (canon p.cs, Node.dir) :: fs ∧ findKey fs (canon p.cs) = none ∧
      canon p.cs ≠ [] := by
  simp only [FS.mkdirFS] at h
  split at h
  · split at h <;> exact absurd h (by simp)
  · rename_i hce
    have hne : canon p.cs ≠ [] := by
      intro hnil
      rw [hnil] at hce
      exact hce rfl
    split at h
    · exact absurd h (by simp)
    · rename_i hfk
      split at h
      · injection h with h1
        exact ⟨h1.symm, hfk, hne⟩
      · split at h
        · injection h with h1
          exact ⟨h1.symm, hfk, hne⟩
        · exact absurd h (by simp)
        · split at h <;> exact absurd h (by simp)

theorem statP_isOk_mkdir {fs : FS} {p : Path} (h : (FS.statP fs p).isOk = true) :
    FS.mkdirFS fs p = .error .alreadyExists := by
  simp only [FS.statP] at h
  simp only [FS.mkdirFS]
  split at h
  · rename_i hce
    rw [if_pos hce]
    split at h
    · exact absurd h (by simp [Except.isOk, Except.toBool])
    · rename_i hcc
      rw [if_neg hcc]
  · rename_i hce
    rw [if_neg hce]
    split at h
    · rename_i n hfk
      simp [hfk]
    · rename_i hfk
      split at h <;> exact absurd h (by simp [Except.isOk, Except.toBool])

/-- Claim C6: on success `create_dir` adds exactly one directory and its
trace is create, fsync of the new directory, then fsync of its parent, in
this order; and whenever the path already exists — as a directory or
otherwise — it fails with `AlreadyExists`, never silently succeeding. -/
theorem create_dir_single :
    (∀ (fs : FS) (p : Path) (fs' : FS) (tr : List Event),
      create_dir fs p = .ok (fs', tr) →
      fs' = (canon p.cs, Node.dir) :: fs ∧
      ∃ par, p.parent = some par ∧
        tr = [Event.create p, Event.fsync p, Event.fsync par]) ∧
    (∀ (fs : FS) (p : Path), (FS.statP fs p).isOk = true →
      create_dir fs p = .error .alreadyExists) := by
  constructor
  · intro fs p fs' tr h
    simp only [create_dir] at h
    split at h
    · exact absurd h (by simp)
    · rename_i fs1 hmk
      obtain ⟨hfs1, hfk, hne⟩ := mkdirFS_ok hmk
      split at h
      · exact absurd h (by simp)
      · rename_i fs2 tr2 hffp
        injection h with h1
        injection h1 with hA hB
        simp only [fsync_file_and_parent] at hffp
        split at hffp
        · exact absurd hffp (by simp)
        · rename_i par hpar
          split at hffp
          · exact absurd hffp (by simp)
          · rename_i fsa t1 hf1
            split at hffp
            · exact absurd hffp (by simp)
            · rename_i fsb t2 hf2
              injection hffp with h2
              injection h2 with hC hD
              obtain ⟨hfa, ht1⟩ := fsync_ok_inv hf1
              obtain ⟨hfb, ht2⟩ := fsync_ok_inv hf2
              constructor
              · rw [← hA, ← hC, hfb, hfa, hfs1]
              · exact ⟨par, hpar, by rw [← hB, ← hD, ht1, ht2]; rfl⟩
  · intro fs p h
    simp only [create_dir]
    rw [statP_isOk_mkdir h]

/-- Witness for C6: creating `/a/b` under an existing `/a` yields exactly the
create-fsync-fsync trace, and `create_dir` on the existing `/a` fails with
`AlreadyExists`. -/
theorem create_dir_single_witness :
    create_dir [(["a"], Node.dir)] ⟨true, ["a", "b"]⟩ =
      .ok ([(["a", "b"], Node.dir), (["a"], Node.dir)],
        [Event.create ⟨true, ["a", "b"]⟩, Event.fsync ⟨true, ["a", "b"]⟩,
         Event.fsync ⟨true, ["a"]⟩]) ∧
    (∃ par, Path.parent ⟨true, ["a", "b"]⟩ = some par ∧
      [Event.create ⟨true, ["a", "b"]⟩, Event.fsync ⟨true, ["a", "b"]⟩,
       Event.fsync ⟨true, ["a"]⟩] =
      [Event.create ⟨true, ["a", "b"]⟩, Event.fsync ⟨true, ["a", "b"]⟩,
       Event.fsync par]) ∧
    create_dir [(["a"], Node.dir)] ⟨true, ["a"]⟩ = .error .alreadyExists := by
  refine ⟨rfl, ?_, ?_⟩
  · exact (create_dir_single.1 [(["a"], Node.dir)] ⟨true, ["a", "b"]⟩
      [(["a", "b"], Node.dir), (["a"], Node.dir)]
      [Event.create ⟨true, ["a", "b"]⟩, Event.fsync ⟨true, ["a", "b"]⟩,
       Event.fsync ⟨true, ["a"]⟩] rfl).2
  · exact create_dir_single.2 [(["a"], Node.dir)] ⟨true, ["a"]⟩ rfl

/-! ### Claim C4: `create_dir_all` conflict errors -/

theorem hasFileAncestor_nil (fs : FS) : hasFileAncestor fs [] = false := rfl

theorem statP_notADirectory {fs : FS} {p : Path}
    (h1 : findKey fs (canon p.cs) = none)
    (h2 : hasFileAncestor fs (canon p.cs) = true) :
    FS.statP fs p = .error .notADirectory := by
  cases hc : canon p.cs with
  | nil => rw [hc] at h2; rw [hasFileAncestor_nil] at h2; exact absurd h2 (by simp)
  | cons a l =>
    rw [hc] at h1 h2
    simp [FS.statP, hc, h1, h2]

/-- Claim C4 counterexample: with `/a` an existing file, `create_dir_all` on
`/a/b` fails with the propagated `NotADirectory` stat error, not with the
`AlreadyExists`/`Conflict` error the claim names. -/
theorem create_dir_all_file_ancestor_counterexample :
    create_dir_all [(["a"], Node.file "x")] ⟨true, ["a", "b"]⟩ =
      .error .notADirectory ∧
    FsErr.notADirectory ≠ FsErr.alreadyExists :=
  ⟨rfl, by decide⟩

/-- Claim C4 (amended): when the requested path itself exists as a
non-directory, `create_dir_all` fails with `AlreadyExists` (the spec's
`Conflict`); when instead a strict ancestor is an existing non-directory,
the upward walk's `metadata` call fails with `NotADirectory` and
`create_dir_all` returns that error unchanged.  Either failure happens in
the read-only collection phase, so no directory is created. -/
theorem create_dir_all_conflict_errors :
    (∀ (fs : FS) (p : Path) (c : String),
      FS.statP fs p = .ok (Node.file c) →
      create_dir_all fs p = .error .alreadyExists ∧
      collectDirs fs p = .error .alreadyExists) ∧
    (∀ (fs : FS) (p : Path),
      findKey fs (canon p.cs) = none → hasFileAncestor fs (canon p.cs) = true →
      create_dir_all fs p = .error .notADirectory ∧
      collectDirs fs p = .error .notADirectory) := by
  constructor
  · intro fs p c h
    constructor
    · simp [create_dir_all, collectDirs, collectAux, h]
    · simp [collectDirs, collectAux, h]
  · intro fs p h1 h2
    have hs := statP_notADirectory h1 h2
    constructor
    · simp [create_dir_all, collectDirs, collectAux, hs]
    · simp [collectDirs, collectAux, hs]

/-- Witness for C4 (amended): `/a` an existing file gives `AlreadyExists` on
`create_dir_all /a`, and `NotADirectory` on `create_dir_all /f/d` with `/f`
a file. -/
theorem create_dir_all_conflict_errors_witness :
    FS.statP [(["a"], Node.file "x")] ⟨true, ["a"]⟩ = .ok (Node.file "x") ∧
    create_dir_all [(["a"], Node.file "x")] ⟨true, ["a"]⟩ = .error .alreadyExists ∧
    findKey [(["f"], Node.file "y")] (canon ["f", "d"]) = none ∧
    hasFileAncestor [(["f"], Node.file "y")] (canon ["f", "d"]) = true ∧
    create_dir_all [(["f"], Node.file "y")] ⟨true, ["f", "d"]⟩ =
      .error .notADirectory := by
  refine ⟨rfl, ?_, rfl, rfl, ?_⟩
  · exact (create_dir_all_conflict_errors.1 [(["a"], Node.file "x")]
      ⟨true, ["a"]⟩ "x" rfl).1
  · exact (create_dir_all_conflict_errors.2 [(["f"], Node.file "y")]
      ⟨true, ["f", "d"]⟩ rfl rfl).1

/-! ### Claims C3 and C5: `create_dir_all` success runs -/

theorem collectAux_spec (fs : FS) :
    ∀ (fuel : Nat) (p : Path) (dirs : List Path) (anc : Path),
      collectAux fs fuel p = .ok (dirs, anc) →
      FS.statP fs anc = .ok Node.dir ∧
      (dirs = [] → anc = p ∧ FS.statP fs p = .ok Node.dir) ∧
      (dirs ≠ [] → dirs.head? = some p) ∧
      parentLinked dirs anc ∧
      (∀ d ∈ dirs, FS.statP fs d = .error .notFound ∧ d.cs ≠ []) := by
  intro fuel
  induction fuel with
  | zero => intro p dirs anc h; exact absurd h (by simp [collectAux])
  | succ n ih =>
    intro p dirs anc h
    rw [collectAux] at h
    split at h
    · -- statP fs p = .ok Node.dir
      rename_i hsd
      injection h with h1
      injection h1 with hA hB
      subst hA; subst hB
      exact ⟨hsd, fun _ => ⟨rfl, hsd⟩, fun hne => absurd rfl hne, trivial, by simp⟩
    · -- statP fs p = .ok (Node.file _)
      exact absurd h (by simp)
    · -- statP fs p = .error .notFound
      rename_i hsp
      split at h
      · exact absurd h (by simp)
      · rename_i par hpar
        split at h
        · rename_i dirs2 anc2 hrec
          injection h with h1
          injection h1 with hA hB
          subst hA; subst hB
          obtain ⟨ia, ib, ic, id2, ie⟩ := ih par dirs2 anc2 hrec
          refine ⟨ia, ?_, fun _ => rfl, ?_, ?_⟩
          · intro hnil; exact absurd hnil (by simp)
          · cases dirs2 with
            | nil =>
              obtain ⟨hanc, -⟩ := ib rfl
              show p.parent = some anc2
              rw [hanc]; exact hpar
            | cons d2 rest =>
              have hh := ic (by simp)
              have hd2 : d2 = par := by injection hh
              constructor
              · rw [hd2]; exact hpar
              · exact id2
          · intro d hd
            cases List.mem_cons.mp hd with
            | inl he => subst he; exact ⟨hsp, (parent_some_cs hpar).2.1⟩
            | inr he => exact ie d he
        · exact absurd h (by simp)
    · -- statP fs p = .error e, e ≠ notFound
      exact absurd h (by simp)

theorem createAll_ok :
    ∀ (l : List Path) (fs fs2 : FS) (tr : List Event),
      createAll fs l = .ok (fs2, tr) →
      tr = l.map Event.create ∧
      (∀ q n, findKey fs q = some n → findKey fs2 q = some n) ∧
      (∀ d ∈ l, findKey fs2 (canon d.cs) = some Node.dir) := by
  intro l
  induction l with
  | nil =>
    intro fs fs2 tr h
    simp only [createAll] at h
    injection h with h1
    injection h1 with hA hB
    refine ⟨hB.symm, fun q n hq => by rw [← hA]; exact hq, by simp⟩
  | cons d rest ih =>
    intro fs fs2 tr h
    simp only [createAll] at h
    split at h
    · exact absurd h (by simp)
    · rename_i fs1 hmk
      split at h
      · exact absurd h (by simp)
      · rename_i fsb trb hrec
        injection h with h1
        injection h1 with hA hB
        subst hA; subst hB
        obtain ⟨hfs1, hfknone, hne⟩ := mkdirFS_ok hmk
        obtain ⟨ta, tb, tc⟩ := ih fs1 _ trb hrec
        refine ⟨by rw [ta]; rfl, ?_, ?_⟩
        · intro q n hq
          apply tb
          rw [hfs1]
          by_cases hqe : canon d.cs = q
          · subst hqe; rw [hfknone] at hq; exact absurd hq (by simp)
          · simp only [findKey, if_neg hqe]; exact hq
        · intro e he
          cases List.mem_cons.mp he with
          | inl h1 =>
            subst h1
            apply tb
            rw [hfs1]
            simp [findKey]
          | inr h1 => exact tc e h1

theorem fsyncAll_ok :
    ∀ (l : List Path) (fs fs2 : FS) (tr : List Event),
      fsyncAll fs l = .ok (fs2, tr) → fs2 = fs ∧ tr = l.map Event.fsync := by
  intro l
  induction l with
  | nil =>
    intro fs fs2 tr h
    simp only [fsyncAll] at h
    injection h with h1
    injection h1 with hA hB
    exact ⟨hA.symm, hB.symm⟩
  | cons d rest ih =>
    intro fs fs2 tr h
    simp only [fsyncAll] at h
    split at h
    · exact absurd h (by simp)
    · rename_i fs1 t0 hf
      obtain ⟨hfs1, -⟩ := fsync_ok_inv hf
      split at h
      · exact absurd h (by simp)
      · rename_i fsb trb hrec
        injection h with h1
        injection h1 with hA hB
        subst hA; subst hB
        obtain ⟨ha, hb⟩ := ih fs1 _ trb hrec
        exact ⟨by rw [ha, hfs1], by rw [hb]; rfl⟩

/-- Dissection of a successful `create_dir_all` run into its phases. -/
theorem create_dir_all_ok {fs : FS} {p : Path} {fs' : FS} {tr : List Event}
    (h : create_dir_all fs p = .ok (fs', tr)) :
    ∃ dirs anc, collectDirs fs p = .ok (dirs, anc) ∧
      createAll fs dirs.reverse = .ok (fs', dirs.reverse.map Event.create) ∧
      tr = dirs.reverse.map Event.create ++ dirs.map Event.fsync ++
        (if dirs.isEmpty then [] else [Event.fsync anc]) := by
  simp only [create_dir_all] at h
  split at h
  · exact absurd h (by simp)
  · rename_i dirs anc hcol
    split at h
    · exact absurd h (by simp)
    · rename_i fs1 t1 hca
      split at h
      · exact absurd h (by simp)
      · rename_i fs2 t2 hfa
        obtain ⟨hfs2, ht2⟩ := fsyncAll_ok dirs fs1 fs2 t2 hfa
        subst hfs2
        split at h
        · rename_i hde
          injection h with h1
          injection h1 with hA hB
          subst hA
          obtain ⟨ht1, -, -⟩ := createAll_ok dirs.reverse fs _ t1 hca
          refine ⟨dirs, anc, hcol, by rw [← ht1]; exact hca, ?_⟩
          rw [if_pos hde, ← hB, ht1, ht2]
          simp
        · rename_i hde
          split at h
          · exact absurd h (by simp)
          · rename_i fs3 t3 hfsy
            obtain ⟨hfs3, ht3⟩ := fsync_ok_inv hfsy
            subst hfs3
            injection h with h1
            injection h1 with hA hB
            subst hA
            obtain ⟨ht1, -, -⟩ := createAll_ok dirs.reverse fs _ t1 hca
            refine ⟨dirs, anc, hcol, by rw [← ht1]; exact hca, ?_⟩
            rw [if_neg hde, ← hB, ht1, ht2, ht3]

/-- `create_dir_all` on an existing directory is a no-op success with no
fsync at all. -/
theorem create_dir_all_noop (fs : FS) (p : Path)
    (h : FS.statP fs p = .ok Node.dir) : create_dir_all fs p = .ok (fs, []) := by
  simp [create_dir_all, collectDirs, collectAux, h, createAll, fsyncAll]

/-- Claim C3: on every successful run of `create_dir_all`, the effect trace
is exactly: the collected missing directories created top-down (each path's
parent right before it), then fsynced child-before-parent (the exact reverse
order), and finally exactly one fsync of the pre-existing ancestor — which
was a directory before the call, while every created path was absent; and a
call on an already existing directory is a no-op success issuing no fsync. -/
theorem create_dir_all_fsync_order :
    (∀ (fs : FS) (p : Path) (fs' : FS) (tr : List Event),
      create_dir_all fs p = .ok (fs', tr) →
      ∃ dirs anc, collectDirs fs p = .ok (dirs, anc) ∧
        tr = dirs.reverse.map Event.create ++ dirs.map Event.fsync ++
          (if dirs.isEmpty then [] else [Event.fsync anc]) ∧
        (dirs ≠ [] → dirs.head? = some p) ∧
        parentLinked dirs anc ∧
        (∀ d ∈ dirs, FS.statP fs d = .error .notFound) ∧
        FS.statP fs anc = .ok Node.dir) ∧
    (∀ (fs : FS) (p : Path), FS.statP fs p = .ok Node.dir →
      create_dir_all fs p = .ok (fs, [])) := by
  constructor
  · intro fs p fs' tr h
    obtain ⟨dirs, anc, hcol, hca, htr⟩ := create_dir_all_ok h
    obtain ⟨ha, hb, hc, hd, he⟩ :=
      collectAux_spec fs (p.cs.length + 1) p dirs anc hcol
    exact ⟨dirs, anc, hcol, htr, hc, hd, fun d hdm => (he d hdm).1, ha⟩
  · exact create_dir_all_noop

/-- Witness for C3: creating `/a/b/c` under an existing `/a` produces the
top-down creates, child-first fsyncs and the single ancestor fsync; the
no-op case issues nothing. -/
theorem create_dir_all_fsync_order_witness :
    create_dir_all [(["a"], Node.dir)] ⟨true, ["a", "b", "c"]⟩ =
      .ok ([(["a", "b", "c"], Node.dir), (["a", "b"], Node.dir), (["a"], Node.dir)],
        [Event.create ⟨true, ["a", "b"]⟩, Event.create ⟨true, ["a", "b", "c"]⟩,
         Event.fsync ⟨true, ["a", "b", "c"]⟩, Event.fsync ⟨true, ["a", "b"]⟩,
         Event.fsync ⟨true, ["a"]⟩]) ∧
    (∃ dirs anc,
      collectDirs [(["a"], Node.dir)] ⟨true, ["a", "b", "c"]⟩ = .ok (dirs, anc) ∧
      parentLinked dirs anc ∧
      FS.statP [(["a"], Node.dir)] anc = .ok Node.dir) ∧
    create_dir_all [(["a"], Node.dir)] ⟨true, ["a"]⟩ = .ok ([(["a"], Node.dir)], []) := by
  refine ⟨rfl, ?_, ?_⟩
  · obtain ⟨dirs, anc, h1, _, _, h4, _, h6⟩ :=
      create_dir_all_fsync_order.1 [(["a"], Node.dir)] ⟨true, ["a", "b", "c"]⟩
        [(["a", "b", "c"], Node.dir), (["a", "b"], Node.dir), (["a"], Node.dir)]
        [Event.create ⟨true, ["a", "b"]⟩, Event.create ⟨true, ["a", "b", "c"]⟩,
         Event.fsync ⟨true, ["a", "b", "c"]⟩, Event.fsync ⟨true, ["a", "b"]⟩,
         Event.fsync ⟨true, ["a"]⟩] rfl
    exact ⟨dirs, anc, h1, h4, h6⟩
  · exact create_dir_all_fsync_order.2 [(["a"], Node.dir)] ⟨true, ["a"]⟩ rfl

/-- Claim C5: a successful `create_dir_all` leaves every collected missing
directory present (all N of them) and the full path present as a directory,
and immediately rerunning it on the same path is a no-op success that changes
nothing. -/
theorem create_dir_all_creates_and_idempotent :
    ∀ (fs : FS) (p : Path) (fs' : FS) (tr : List Event),
      create_dir_all fs p = .ok (fs', tr) →
      ∃ dirs anc, collectDirs fs p = .ok (dirs, anc) ∧
        (∀ d ∈ dirs, findKey fs' (canon d.cs) = some Node.dir) ∧
        FS.statP fs' p = .ok Node.dir ∧
        create_dir_all fs' p = .ok (fs', []) := by
  intro fs p fs' tr h
  obtain ⟨dirs, anc, hcol, hca, htr⟩ := create_dir_all_ok h
  obtain ⟨ha, hb, hc, hd, he⟩ := collectAux_spec fs (p.cs.length + 1) p dirs anc hcol
  obtain ⟨ht1, hpres, hcreated⟩ := createAll_ok dirs.reverse fs fs' _ hca
  have hmem : ∀ d ∈ dirs, findKey fs' (canon d.cs) = some Node.dir := by
    intro d hdm
    exact hcreated d (List.mem_reverse.mpr hdm)
  have hstat : FS.statP fs' p = .ok Node.dir := by
    cases hdn : dirs with
    | nil =>
      subst hdn
      have hfs : fs' = fs := by
        simp only [List.reverse_nil, createAll] at hca
        injection hca with h1
        injection h1 with hA hB
        exact hA.symm
      rw [hfs]
      exact (hb rfl).2
    | cons d0 rest =>
      subst hdn
      have hp : d0 = p := by
        have hh := hc (by simp)
        injection hh
      subst hp
      have hnotF := (he d0 (by simp)).1
      have hcsne := (he d0 (by simp)).2
      have hcne : canon d0.cs ≠ [] := by
        intro hnil
        cases hcs : d0.cs with
        | nil => exact hcsne hcs
        | cons a l =>
          rw [hcs] at hnil
          simp [FS.statP, hnil, hcs] at hnotF
      cases hcc : canon d0.cs with
      | nil => exact absurd hcc hcne
      | cons a l =>
        have hm := hmem d0 (by simp)
        rw [hcc] at hm
        simp [FS.statP, hcc, hm]
  exact ⟨dirs, anc, hcol, hmem, hstat, create_dir_all_noop fs' p hstat⟩

/-- Witness for C5: creating `/a/b` in the empty filesystem leaves both
directories present and the rerun is a no-op. -/
theorem create_dir_all_creates_and_idempotent_witness :
    create_dir_all ([] : FS) ⟨true, ["a", "b"]⟩ =
      .ok ([(["a", "b"], Node.dir), (["a"], Node.dir)],
        [Event.create ⟨true, ["a"]⟩, Event.create ⟨true, ["a", "b"]⟩,
         Event.fsync ⟨true, ["a", "b"]⟩, Event.fsync ⟨true, ["a"]⟩,
         Event.fsync ⟨true, []⟩]) ∧
    (∃ dirs anc, collectDirs ([] : FS) ⟨true, ["a", "b"]⟩ = .ok (dirs, anc) ∧
      (∀ d ∈ dirs,
        findKey [(["a", "b"], Node.dir), (["a"], Node.dir)] (canon d.cs) =
          some Node.dir) ∧
      FS.statP [(["a", "b"], Node.dir), (["a"], Node.dir)] ⟨true, ["a", "b"]⟩ =
        .ok Node.dir ∧
      create_dir_all [(["a", "b"], Node.dir), (["a"], Node.dir)] ⟨true, ["a", "b"]⟩ =
        .ok ([(["a", "b"], Node.dir), (["a"], Node.dir)], [])) := by
  refine ⟨rfl, ?_⟩
  exact create_dir_all_creates_and_idempotent [] ⟨true, ["a", "b"]⟩
    [(["a", "b"], Node.dir), (["a"], Node.dir)]
    [Event.create ⟨true, ["a"]⟩, Event.create ⟨true, ["a", "b"]⟩,
     Event.fsync ⟨true, ["a", "b"]⟩, Event.fsync ⟨true, ["a"]⟩,
     Event.fsync ⟨true, []⟩] rfl

/-! ### Claim C2: the rename postcondition -/

theorem mem_properPrefixes :
    ∀ (k q : List String), q ∈ properPrefixes k ↔ q <+: k ∧ q ≠ k := by
  intro k
  induction k with
  | nil =>
    intro q
    constructor
    · intro h; exact absurd h (by simp [properPrefixes])
    · rintro ⟨h1, h2⟩; exact absurd (List.prefix_nil.mp h1) h2
  | cons c cs ih =>
    intro q
    simp only [properPrefixes, List.mem_cons, List.mem_map]
    constructor
    · rintro (rfl | ⟨r, hr, rfl⟩)
      · exact ⟨List.nil_prefix, by simp⟩
      · obtain ⟨h1, h2⟩ := (ih r).mp hr
        exact ⟨List.cons_prefix_cons.mpr ⟨rfl, h1⟩, by simp [h2]⟩
    · rintro ⟨h1, h2⟩
      cases q with
      | nil => exact Or.inl rfl
      | cons a q' =>
        obtain ⟨rfl, h1'⟩ := List.cons_prefix_cons.mp h1
        refine Or.inr ⟨q', (ih q').mpr ⟨h1', ?_⟩, rfl⟩
        intro he; subst he; exact h2 rfl

theorem findKey_some_mem :
    ∀ (fs : FS) (q : List String) (n : Node), findKey fs q = some n → (q, n) ∈ fs := by
  intro fs
  induction fs with
  | nil => intro q n h; exact absurd h (by simp [findKey])
  | cons hd tl ih =>
    intro q n h
    obtain ⟨k, m⟩ := hd
    simp only [findKey] at h
    by_cases hk : k = q
    · rw [if_pos hk] at h
      injection h with h1
      subst hk; subst h1
      exact List.mem_cons_self _ _
    · rw [if_neg hk] at h
      exact List.mem_cons_of_mem _ (ih q n h)

/-- In a well-formed filesystem every strict ancestor of a stored key is a
stored directory. -/
theorem wf_prefix_dir {fs : FS} (hwf : FS.wf fs) {k : List String} {n : Node}
    (hk : findKey fs k = some n) {q : List String}
    (hq : q <+: k) (hne : q ≠ k) (hqn : q ≠ []) :
    findKey fs q = some Node.dir := by
  have hmem := findKey_some_mem fs k n hk
  obtain ⟨-, h2⟩ := hwf
  have h3 := (h2 (k, n) hmem).2 q ((mem_properPrefixes k q).mpr ⟨hq, hne⟩)
  cases h3 with
  | inl h => exact absurd h hqn
  | inr h => exact h

theorem findKey_cons (k : List String) (n : Node) (fs : FS) (q : List String) :
    findKey ((k, n) :: fs) q = if k = q then some n else findKey fs q := rfl

theorem renameMove_cons (k : List String) (n : Node) (tl : FS) (co cn : List String) :
    FS.renameMove ((k, n) :: tl) co cn =
      if cn.isPrefixOf k then FS.renameMove tl co cn
      else (if co.isPrefixOf k then (cn ++ k.drop co.length, n) else (k, n)) ::
        FS.renameMove tl co cn := by
  by_cases h : cn.isPrefixOf k
  · simp [FS.renameMove, List.filter_cons, h]
  · simp [FS.renameMove, List.filter_cons, h]

/-- After the move, the destination key holds what the source key held. -/
theorem renameMove_findKey_dst (fs : FS) (co cn : List String)
    (hncn : ¬ cn <+: co) :
    findKey (FS.renameMove fs co cn) cn = findKey fs co := by
  induction fs with
  | nil => rfl
  | cons hd tl ih =>
    obtain ⟨k, n⟩ := hd
    rw [renameMove_cons]
    by_cases h1 : cn.isPrefixOf k
    · rw [if_pos h1]
      have hk : k ≠ co := by
        intro he; subst he
        exact hncn (List.isPrefixOf_iff_prefix.mp h1)
      rw [findKey_cons, if_neg hk]
      exact ih
    · rw [if_neg h1]
      by_cases h2 : co.isPrefixOf k
      · rw [if_pos h2]
        obtain ⟨t, rfl⟩ := List.isPrefixOf_iff_prefix.mp h2
        by_cases h3 : t = []
        · subst h3
          simp [findKey_cons, List.drop_left]
        · have hne2 : cn ++ (co ++ t).drop co.length ≠ cn := by
            rw [List.drop_left]
            intro he
            have hlen := congrArg List.length he
            simp at hlen
            exact h3 hlen
          have hne3 : co ++ t ≠ co := by
            intro he
            have hlen := congrArg List.length he
            simp at hlen
            exact h3 hlen
          rw [findKey_cons, if_neg hne2, findKey_cons, if_neg hne3]
          exact ih
      · rw [if_neg h2]
        have hkcn : k ≠ cn := by
          intro he; subst he
          exact h1 (List.isPrefixOf_iff_prefix.mpr (List.prefix_refl _))
        have hkco : k ≠ co := by
          intro he; subst he
          exact h2 (List.isPrefixOf_iff_prefix.mpr (List.prefix_refl _))
        rw [findKey_cons, if_neg hkcn, findKey_cons, if_neg hkco]
        exact ih

/-- After the move, the source key is gone. -/
theorem renameMove_findKey_src (fs : FS) (co cn : List String)
    (hncn : ¬ cn <+: co) :
    findKey (FS.renameMove fs co cn) co = none := by
  induction fs with
  | nil => rfl
  | cons hd tl ih =>
    obtain ⟨k, n⟩ := hd
    rw [renameMove_cons]
    by_cases h1 : cn.isPrefixOf k
    · rw [if_pos h1]; exact ih
    · rw [if_neg h1]
      by_cases h2 : co.isPrefixOf k
      · rw [if_pos h2]
        have hne2 : cn ++ k.drop co.length ≠ co := by
          intro he
          exact hncn (he ▸ List.prefix_append cn (k.drop co.length))
        rw [findKey_cons, if_neg hne2]
        exact ih
      · rw [if_neg h2]
        have hkco : k ≠ co := by
          intro he; subst he
          exact h2 (List.isPrefixOf_iff_prefix.mpr (List.prefix_refl _))
        rw [findKey_cons, if_neg hkco]
        exact ih

/-- The move leaves every strict ancestor of the source key untouched. -/
theorem renameMove_findKey_other (fs : FS) (co cn q : List String)
    (hq : q <+: co) (hqne : q ≠ co) (hncn : ¬ cn <+: co) :
    findKey (FS.renameMove fs co cn) q = findKey fs q := by
  have hcnq : ¬ cn <+: q := fun hc => hncn (hc.trans hq)
  have hqlt : q.length < co.length := by
    obtain ⟨t, rfl⟩ := hq
    have ht : t ≠ [] := by intro he; subst he; exact hqne (by simp)
    have := List.length_pos.mpr ht
    simp
    omega
  induction fs with
  | nil => rfl
  | cons hd tl ih =>
    obtain ⟨k, n⟩ := hd
    rw [renameMove_cons]
    by_cases h1 : cn.isPrefixOf k
    · rw [if_pos h1]
      have hk : k ≠ q := by
        intro he; subst he
        exact hcnq (List.isPrefixOf_iff_prefix.mp h1)
      rw [findKey_cons, if_neg hk]
      exact ih
    · rw [if_neg h1]
      by_cases h2 : co.isPrefixOf k
      · rw [if_pos h2]
        have hklen : co.length ≤ k.length := (List.isPrefixOf_iff_prefix.mp h2).length_le
        have hne2 : cn ++ k.drop co.length ≠ q := by
          intro he
          exact hcnq (he ▸ List.prefix_append cn (k.drop co.length))
        have hne3 : k ≠ q := by
          intro he; subst he
          omega
        rw [findKey_cons, if_neg hne2, findKey_cons, if_neg hne3]
        exact ih
      · rw [if_neg h2]
        rw [findKey_cons, findKey_cons]
        by_cases hkq : k = q
        · rw [if_pos hkq, if_pos hkq]
        · rw [if_neg hkq, if_neg hkq]
          exact ih

/-- Combined effect of a successful subtree move on lookups. -/
theorem renameMove_spec {fs : FS} (hwf : FS.wf fs) {co cn : List String} {oldE : Node}
    (hfk : findKey fs co = some oldE) (hncn : ¬ cn <+: co) :
    findKey (FS.renameMove fs co cn) cn = some oldE ∧
    findKey (FS.renameMove fs co cn) co = none ∧
    hasFileAncestor (FS.renameMove fs co cn) co = false := by
  refine ⟨?_, renameMove_findKey_src fs co cn hncn, ?_⟩
  · rw [renameMove_findKey_dst fs co cn hncn]; exact hfk
  · rw [hasFileAncestor]
    rw [List.any_eq_false]
    intro q hq
    obtain ⟨hpre, hqne⟩ := (mem_properPrefixes co q).mp hq
    by_cases hqnil : q = []
    · subst hqnil; simp
    · have hdir : findKey fs q = some Node.dir := wf_prefix_dir hwf hfk hpre hqne hqnil
      have hmv : findKey (FS.renameMove fs co cn) q = some Node.dir := by
        rw [renameMove_findKey_other fs co cn q hpre hqne hncn]
        exact hdir
      simp [isFileKey, hmv]

/-- Packaging of the lookup facts into `statP` form. -/
theorem statP_pack {fs fs' : FS} {old nw : Path} {oldE : Node}
    (hfk : findKey fs (canon old.cs) = some oldE)
    (hconil : canon old.cs ≠ []) (hcnnil : canon nw.cs ≠ [])
    (h1 : findKey fs' (canon nw.cs) = some oldE)
    (h2 : findKey fs' (canon old.cs) = none)
    (h3 : hasFileAncestor fs' (canon old.cs) = false) :
    FS.statP fs old = .ok oldE ∧ FS.statP fs' nw = .ok oldE ∧
      FS.statP fs' old = .error .notFound := by
  refine ⟨?_, ?_, ?_⟩
  · cases hc : canon old.cs with
    | nil => exact absurd hc hconil
    | cons a l => rw [hc] at hfk; simp [FS.statP, hc, hfk]
  · cases hc : canon nw.cs with
    | nil => exact absurd hc hcnnil
    | cons a l => rw [hc] at h1; simp [FS.statP, hc, h1]
  · cases hc : canon old.cs with
    | nil => exact absurd hc hconil
    | cons a l => rw [hc] at h2 h3; simp [FS.statP, hc, h2, h3]

/-- A successful rename of distinct entries in a well-formed filesystem moves
the source entry to the destination and removes the source. -/
theorem rename_ok_spec {fs : FS} {old nw : Path} {fs' : FS}
    (hwf : FS.wf fs) (hne : canon old.cs ≠ canon nw.cs)
    (h : FS.rename fs old nw = .ok fs') :
    ∃ oldE, FS.statP fs old = .ok oldE ∧
      FS.statP fs' nw = .ok oldE ∧ FS.statP fs' old = .error .notFound := by
  simp only [FS.rename] at h
  split at h
  · exact absurd h (by simp)
  · split at h
    · exact absurd h (by simp)
    · split at h
      · exact absurd h (by simp)
      · rename_i hcoE
        split at h
        · exact absurd h (by simp)
        · rename_i hcnE
          have hconil : canon old.cs ≠ [] := by
            intro hnil; exact hcoE (by rw [hnil]; rfl)
          have hcnnil : canon nw.cs ≠ [] := by
            intro hnil; exact hcnE (by rw [hnil]; rfl)
          split at h
          · split at h <;> exact absurd h (by simp)
          · rename_i oldE hfk
            -- the `co = cn` no-op case was discharged by `split` against `hne`
            by_cases hpre : (canon old.cs).isPrefixOf (canon nw.cs) = true
            · rw [if_pos hpre] at h
              exact absurd h (by simp)
            · rw [if_neg hpre] at h
              cases hpc : FS.rename.parCheck fs (canon nw.cs).dropLast with
              | error e =>
                rw [hpc] at h
                exact absurd h (by simp)
              | ok u =>
                rw [hpc] at h
                cases hfkcn : findKey fs (canon nw.cs) with
                | none =>
                  rw [hfkcn] at h
                  injection h with h1
                  subst h1
                  have hncn : ¬ canon nw.cs <+: canon old.cs := by
                    intro hp
                    have hd := wf_prefix_dir hwf hfk hp (Ne.symm hne) hcnnil
                    rw [hfkcn] at hd
                    exact absurd hd (by simp)
                  obtain ⟨m1, m2, m3⟩ := renameMove_spec hwf hfk hncn
                  exact ⟨oldE, statP_pack hfk hconil hcnnil m1 m2 m3⟩
                | some nd =>
                  rw [hfkcn] at h
                  have hncn : ¬ canon nw.cs <+: canon old.cs := by
                    intro hp
                    have hd := wf_prefix_dir hwf hfk hp (Ne.symm hne) hcnnil
                    rw [hfkcn] at hd
                    injection hd with hd1
                    subst hd1
                    -- destination is the directory `[cn ↦ dir]`, which contains
                    -- the source entry, so the non-empty test fires
                    have hdne : dirNonEmpty fs (canon nw.cs) = true := by
                      rw [dirNonEmpty, List.any_eq_true]
                      refine ⟨(canon old.cs, oldE),
                        findKey_some_mem fs (canon old.cs) oldE hfk, ?_⟩
                      simp only [Bool.and_eq_true]
                      exact ⟨bne_iff_ne.mpr hne,
                        List.isPrefixOf_iff_prefix.mpr hp⟩
                    cases oldE with
                    | file c2 => exact absurd h (by simp)
                    | dir =>
                      rw [if_pos hdne] at h
                      exact absurd h (by simp)
                  cases nd with
                  | file c =>
                    cases oldE with
                    | file c2 =>
                      injection h with h1
                      subst h1
                      obtain ⟨m1, m2, m3⟩ := renameMove_spec hwf hfk hncn
                      exact ⟨Node.file c2, statP_pack hfk hconil hcnnil m1 m2 m3⟩
                    | dir => exact absurd h (by simp)
                  | dir =>
                    cases oldE with
                    | file c2 => exact absurd h (by simp)
                    | dir =>
                      by_cases hdne : dirNonEmpty fs (canon nw.cs) = true
                      · rw [if_pos hdne] at h
                        exact absurd h (by simp)
                      · rw [if_neg hdne] at h
                        injection h with h1
                        subst h1
                        obtain ⟨m1, m2, m3⟩ := renameMove_spec hwf hfk hncn
                        exact ⟨Node.dir, statP_pack hfk hconil hcnnil m1 m2 m3⟩

/-- Claim C2 counterexample: `durable_rename` with `old = new` (here `/a`)
returns success — POSIX `rename` on two names of the same existing entry
performs no action and succeeds — yet `old` still exists afterwards, so
"afterwards old no longer exists" fails for such a pair. -/
theorem durable_rename_same_path_counterexample :
    durable_rename [(["a"], Node.file "x")] ⟨true, ["a"]⟩ ⟨true, ["a"]⟩ true =
      .ok ([(["a"], Node.file "x")],
        [Event.fsync ⟨true, ["a"]⟩, Event.rename ⟨true, ["a"]⟩ ⟨true, ["a"]⟩,
         Event.fsync ⟨true, ["a"]⟩, Event.fsync ⟨true, []⟩]) ∧
    FS.statP [(["a"], Node.file "x")] ⟨true, ["a"]⟩ = .ok (Node.file "x") :=
  ⟨rfl, rfl⟩

/-- Claim C2 (amended): for every pair of *distinct* paths in a well-formed
filesystem, and either flag value, a successful `durable_rename` leaves under
`new` exactly the entry (content) `old` held before the call, and `old` no
longer exists; the flag affects only the fsyncs, not this postcondition. -/
theorem durable_rename_moves_entry :
    ∀ (fs : FS) (old nw : Path) (b : Bool) (fs' : FS) (tr : List Event),
      FS.wf fs → canon old.cs ≠ canon nw.cs →
      durable_rename fs old nw b = .ok (fs', tr) →
      ∃ e, FS.statP fs old = .ok e ∧ FS.statP fs' nw = .ok e ∧
        FS.statP fs' old = .error .notFound := by
  intro fs old nw b fs' tr hwf hne h
  obtain ⟨hr, -⟩ := durable_rename_ok_inv h
  exact rename_ok_spec hwf hne hr

/-- Witness for C2 (amended): renaming `/a` to `/b` with fsyncs enabled moves
the file content and removes `/a`. -/
theorem durable_rename_moves_entry_witness :
    FS.wf ([(["a"], Node.file "x")] : FS) ∧
    canon ["a"] ≠ canon ["b"] ∧
    (∃ e, FS.statP [(["a"], Node.file "x")] ⟨true, ["a"]⟩ = .ok e ∧
      FS.statP [(["b"], Node.file "x")] ⟨true, ["b"]⟩ = .ok e ∧
      FS.statP [(["b"], Node.file "x")] ⟨true, ["a"]⟩ = .error .notFound) := by
  refine ⟨by decide, by decide, ?_⟩
  exact durable_rename_moves_entry [(["a"], Node.file "x")] ⟨true, ["a"]⟩ ⟨true, ["b"]⟩
    true [(["b"], Node.file "x")]
    [Event.fsync ⟨true, ["a"]⟩, Event.rename ⟨true, ["a"]⟩ ⟨true, ["b"]⟩,
     Event.fsync ⟨true, ["b"]⟩, Event.fsync ⟨true, []⟩] (by decide) (by decide) rfl

/-! ### Claims C8 and C9: time-travel recovery (modelled from the spec) -/

theorem targetVersion_append (h : Hist) (v : Version) (T : Nat) (hv : ¬ v.t ≤ T) :
    targetVersion (h ++ [v]) T = targetVersion h T := by
  induction h with
  | nil => simp [targetVersion, hv]
  | cons w rest ih => simp [targetVersion, ih]

/-- After reconciling, the live content is the content at time `T`. -/
theorem reconcileKey_live (h : Hist) (T now : Nat) :
    liveC (reconcileKey h T now) = targetC h T := by
  cases ht : targetC h T with
  | some c =>
    simp only [reconcileKey, ht]
    by_cases hl : liveC h = some c
    · rw [if_pos hl]; exact hl
    · rw [if_neg hl]
      simp [liveC, liveVersion, contentOfV]
  | none =>
    simp only [reconcileKey, ht]
    by_cases hl : liveC h = none
    · rw [if_pos hl]; exact hl
    · rw [if_neg hl]
      simp [liveC, liveVersion, contentOfV]

/-- Reconciling appends only versions stamped after `T`, so the content at
`T` is unchanged. -/
theorem reconcileKey_target (h : Hist) (T now : Nat) (hT : T < now) :
    targetC (reconcileKey h T now) T = targetC h T := by
  cases ht : targetC h T with
  | some c =>
    simp only [reconcileKey, ht]
    by_cases hl : liveC h = some c
    · rw [if_pos hl]; exact ht
    · rw [if_neg hl]
      show contentOfV (targetVersion (h ++ [⟨now, false, c⟩]) T) = _
      rw [targetVersion_append h ⟨now, false, c⟩ T (by simp; omega)]
      exact ht
  | none =>
    simp only [reconcileKey, ht]
    by_cases hl : liveC h = none
    · rw [if_pos hl]; exact ht
    · rw [if_neg hl]
      show contentOfV (targetVersion (h ++ [⟨now, true, ""⟩]) T) = _
      rw [targetVersion_append h ⟨now, true, ""⟩ T (by simp; omega)]
      exact ht

/-- A second reconciliation toward the same `T` changes nothing at all. -/
theorem reconcileKey_idem (h : Hist) (T n1 n2 : Nat) (hT : T < n1) :
    reconcileKey (reconcileKey h T n1) T n2 = reconcileKey h T n1 := by
  have h1 := reconcileKey_live h T n1
  have h2 := reconcileKey_target h T n1 hT
  obtain ⟨h', hh⟩ : ∃ h2, reconcileKey h T n1 = h2 := ⟨_, rfl⟩
  rw [hh] at h1 h2 ⊢
  cases ht : targetC h T with
  | some c =>
    have ht2 : targetC h' T = some c := by rw [h2, ht]
    have hl2 : liveC h' = some c := by rw [h1, ht]
    simp [reconcileKey, ht2, hl2]
  | none =>
    have ht2 : targetC h' T = none := by rw [h2, ht]
    have hl2 : liveC h' = none := by rw [h1, ht]
    simp [reconcileKey, ht2, hl2]

theorem recover_recover (s : Store) (T n1 n2 : Nat) (hT : T < n1) :
    recover (recover s T n1) T n2 = recover s T n1 := by
  induction s with
  | nil => rfl
  | cons kh rest ih =>
    simp only [recover, List.map_cons] at ih ⊢
    rw [reconcileKey_idem kh.2 T n1 n2 hT, ih]

theorem liveListing_recover (s : Store) (T n : Nat) :
    liveListing (recover s T n) = listingAt s T := by
  induction s with
  | nil => rfl
  | cons kh rest ih =>
    simp only [recover, liveListing, listingAt, List.map_cons,
      List.filterMap_cons] at ih ⊢
    rw [reconcileKey_live]
    by_cases hc : (targetC kh.2 T).isSome
    · simp [hc, ih]
    · simp [hc, ih]

theorem downloadLive_recover (s : Store) (T n : Nat) (k : String) :
    downloadLive (recover s T n) k = downloadAt s k T := by
  induction s with
  | nil => rfl
  | cons kh rest ih =>
    obtain ⟨k2, h⟩ := kh
    simp only [recover, List.map_cons, downloadLive, downloadAt]
    by_cases hk : k2 = k
    · rw [if_pos hk, if_pos hk, reconcileKey_live]
    · rw [if_neg hk, if_neg hk]
      exact ih

theorem downloadLive_recoverSome (s : Store) (ks : List String) (T n1 n2 : Nat)
    (hT : T < n1) (k : String) :
    downloadLive (recover (recoverSome s ks T n1) T n2) k =
      downloadLive (recover s T n1) k := by
  induction s with
  | nil => rfl
  | cons kh rest ih =>
    obtain ⟨k2, h⟩ := kh
    simp only [recoverSome, recover, List.map_cons]
    by_cases hm : k2 ∈ ks
    · rw [if_pos hm]
      simp only [downloadLive]
      by_cases hk : k2 = k
      · rw [if_pos hk, if_pos hk, reconcileKey_idem h T n1 n2 hT]
      · rw [if_neg hk, if_neg hk]
        exact ih
    · rw [if_neg hm]
      simp only [downloadLive]
      by_cases hk : k2 = k
      · rw [if_pos hk, if_pos hk, reconcileKey_live, reconcileKey_live]
      · rw [if_neg hk, if_neg hk]
        exact ih

/-- Claim C8: recovery to a fixed `T` is idempotent and convergent — a second
full run changes nothing; a full run after any partial (cancelled/failed) run
over a subset of the keys yields the same observable state as a single full
run; and after recovery the live listing equals the listing at `T` while
every key downloads exactly its content at `T`.  Timestamps of recovery
writes lie after `T` (`T < n1`), the spec's `issued_not_before` margin. -/
theorem recover_idempotent :
    ∀ (s : Store) (T n1 n2 : Nat) (ks : List String),
      T < n1 →
      recover (recover s T n1) T n2 = recover s T n1 ∧
      (∀ k, downloadLive (recover (recoverSome s ks T n1) T n2) k =
        downloadLive (recover s T n1) k) ∧
      liveListing (recover s T n1) = listingAt s T ∧
      (∀ k, downloadLive (recover s T n1) k = downloadAt s k T) :=
  fun s T n1 n2 ks hT =>
    ⟨recover_recover s T n1 n2 hT,
     fun k => downloadLive_recoverSome s ks T n1 n2 hT k,
     liveListing_recover s T n1,
     fun k => downloadLive_recover s T n1 k⟩

/-- Witness for C8 on a concrete two-key store. -/
theorem recover_idempotent_witness :
    (2 < 10) ∧
    recover (recover [("k1", [⟨1, false, "a"⟩, ⟨3, false, "b"⟩]),
      ("k2", [⟨2, false, "c"⟩])] 2 10) 2 20 =
      recover [("k1", [⟨1, false, "a"⟩, ⟨3, false, "b"⟩]),
        ("k2", [⟨2, false, "c"⟩])] 2 10 ∧
    downloadLive (recover (recoverSome [("k1", [⟨1, false, "a"⟩, ⟨3, false, "b"⟩]),
      ("k2", [⟨2, false, "c"⟩])] ["k1"] 2 10) 2 20) "k1" =
      downloadLive (recover [("k1", [⟨1, false, "a"⟩, ⟨3, false, "b"⟩]),
        ("k2", [⟨2, false, "c"⟩])] 2 10) "k1" ∧
    liveListing (recover [("k1", [⟨1, false, "a"⟩, ⟨3, false, "b"⟩]),
      ("k2", [⟨2, false, "c"⟩])] 2 10) =
      listingAt [("k1", [⟨1, false, "a"⟩, ⟨3, false, "b"⟩]),
        ("k2", [⟨2, false, "c"⟩])] 2 := by
  refine ⟨by decide, ?_, ?_, ?_⟩
  · exact (recover_idempotent [("k1", [⟨1, false, "a"⟩, ⟨3, false, "b"⟩]),
      ("k2", [⟨2, false, "c"⟩])] 2 10 20 ["k1"] (by decide)).1
  · exact (recover_idempotent [("k1", [⟨1, false, "a"⟩, ⟨3, false, "b"⟩]),
      ("k2", [⟨2, false, "c"⟩])] 2 10 20 ["k1"] (by decide)).2.1 "k1"
  · exact (recover_idempotent [("k1", [⟨1, false, "a"⟩, ⟨3, false, "b"⟩]),
      ("k2", [⟨2, false, "c"⟩])] 2 10 20 ["k1"] (by decide)).2.2.1

/-- Claim C9: the three-snapshot scenario of the S3 test.  Uploads: `path1`
before `t0 = 2`; `path2 = "remote blob data2"` before `t1 = 4`; then `path3`,
an overwrite of `path2` and a delete of `path1` before `t2 = 8`.  Recovery to
`t2` is an exact no-op (listing and `path2` content unchanged); recovery to
`t1` restores `path1` and reverts `path2`, making the listing equal the `t1`
snapshot; recovery to `t0` leaves only `path1`. -/
theorem recover_three_snapshots :
    recoveredT2 = storeT2 ∧
    downloadLive recoveredT2 "path2" = some "new remote blob data2" ∧
    liveListing recoveredT2 = liveListing storeT2 ∧
    liveListing recoveredT1 = liveListing storeT1 ∧
    liveListing recoveredT1 = ["path1", "path2"] ∧
    downloadLive recoveredT1 "path2" = some "remote blob data2" ∧
    downloadLive recoveredT1 "path1" = some "remote blob data1" ∧
    liveListing recoveredT0 = liveListing storeT0 ∧
    liveListing recoveredT0 = ["path1"] := by
  decide

end Neon
